import Mathlib

/-!
Verification development for the CenterNet decode of
`demos/common/python/models/centernet.py` (open_model_zoo).

The decode is a pure numeric transform.  We embed it shallowly over exact
rationals: every float of the Python code becomes a `ℚ`, tensors become
total functions from (channel, row, column) natural-number indices to `ℚ`
carried together with their explicit dimensions, and numpy calls that can
raise (out-of-range `argpartition`, out-of-bounds fancy indexing) become
`Option`-returning definitions whose `none` models the raised exception.
The elementwise sigmoid of `postprocess` (line 65) is not a rational
function; theorems that depend on its range carry the range of the sigmoid,
`0 < v < 1`, as a hypothesis on the activated heatmap instead.
-/

set_option maxHeartbeats 1600000

namespace CenterNet

/-! ## Affine transform solver (lines 94-132, 191-210) -/

/-- A 2x3 affine matrix, row major: row 0 is `a00 a01 a02`. -/
structure AffM where
  a00 : ℚ
  a01 : ℚ
  a02 : ℚ
  a10 : ℚ
  a11 : ℚ
  a12 : ℚ
deriving DecidableEq

instance : Inhabited AffM := ⟨⟨0, 0, 0, 0, 0, 0⟩⟩

/-- Determinant of a 3x3 matrix given row major. -/
def det3x3 (a b c d e f g h i : ℚ) : ℚ :=
  a * (e * i - f * h) - b * (d * i - f * g) + c * (d * h - e * g)

/-- Modelled from cv2: `cv2.getAffineTransform(src, dst)` solves the exact
three-point affine system mapping `p0 p1 p2` to `q0 q1 q2` (here by Cramer's
rule, which is the unique exact solution).  When the source points are
collinear the internal `cv::solve` reports failure and leaves no valid
solution in the output matrix (it is zeroed); no exception is raised. -/
def solveAffine (p0 p1 p2 q0 q1 q2 : ℚ × ℚ) : AffM :=
  let D := det3x3 p0.1 p0.2 1 p1.1 p1.2 1 p2.1 p2.2 1
  if D = 0 then ⟨0, 0, 0, 0, 0, 0⟩ else
  { a00 := det3x3 q0.1 p0.2 1 q1.1 p1.2 1 q2.1 p2.2 1 / D
    a01 := det3x3 p0.1 q0.1 1 p1.1 q1.1 1 p2.1 q2.1 1 / D
    a02 := det3x3 p0.1 p0.2 q0.1 p1.1 p1.2 q1.1 p2.1 p2.2 q2.1 / D
    a10 := det3x3 q0.2 p0.2 1 q1.2 p1.2 1 q2.2 p2.2 1 / D
    a11 := det3x3 p0.1 q0.2 1 p1.1 q1.2 1 p2.1 q2.2 1 / D
    a12 := det3x3 p0.1 p0.2 q0.2 p1.1 p1.2 q1.2 p2.1 p2.2 q2.2 / D }

/-- `get_dir` (lines 97-102).  `sn`/`cs` stand for `np.sin(rot_rad)` and
`np.cos(rot_rad)`; the embedding abstracts the transcendental sine/cosine
of the rotation by the pair of their exact values. -/
def get_dir (src_point : ℚ × ℚ) (sn cs : ℚ) : ℚ × ℚ :=
  (src_point.1 * cs - src_point.2 * sn, src_point.1 * sn + src_point.2 * cs)

/-- `get_3rd_point` (lines 104-106): `b + [-(a-b).y, (a-b).x]`. -/
def get_3rd_point (a b : ℚ × ℚ) : ℚ × ℚ :=
  (b.1 + -(a.2 - b.2), b.2 + (a.1 - b.1))

/-- `get_affine_transform` (lines 94-132) with `scale` already in its
2-vector form (line 108-109 turns a scalar `s` into `[s, s]`; see
`get_affine_transform_scalar`).  `sn`/`cs` are the sine and cosine of
`rot_rad = pi * rot / 180`. -/
def get_affine_transform (center : ℚ × ℚ) (scale : ℚ × ℚ) (sn cs : ℚ)
    (output_size : ℚ × ℚ) (inv : Bool) : AffM :=
  let src_w := scale.1
  let dst_w := output_size.1
  let dst_h := output_size.2
  let src_dir := get_dir (0, src_w * (-1/2)) sn cs
  let dst_dir : ℚ × ℚ := (0, dst_w * (-1/2))
  let src0 := center
  let src1 := (center.1 + src_dir.1, center.2 + src_dir.2)
  let dst0 : ℚ × ℚ := (dst_w * (1/2), dst_h * (1/2))
  let dst1 : ℚ × ℚ := (dst0.1 + dst_dir.1, dst0.2 + dst_dir.2)
  let src2 := get_3rd_point src0 src1
  let dst2 := get_3rd_point dst0 dst1
  if inv then solveAffine dst0 dst1 dst2 src0 src1 src2
  else solveAffine src0 src1 src2 dst0 dst1 dst2

/-- The scalar-`scale` entry point: line 108-109 duplicates a scalar scale
into the 2-vector `[scale, scale]`. -/
def get_affine_transform_scalar (center : ℚ × ℚ) (scale : ℚ) (sn cs : ℚ)
    (output_size : ℚ × ℚ) (inv : Bool) : AffM :=
  get_affine_transform center (scale, scale) sn cs output_size inv

/-- `affine_transform` (lines 193-196): apply a 2x3 matrix to a point as
`[x, y, 1] . T`. -/
def applyAff (t : AffM) (pt : ℚ × ℚ) : ℚ × ℚ :=
  (t.a00 * pt.1 + t.a01 * pt.2 + t.a02, t.a10 * pt.1 + t.a11 * pt.2 + t.a12)

/-- Composition of affine maps as 2x3 matrices (proof machinery). -/
def compAff (m n : AffM) : AffM :=
  { a00 := m.a00 * n.a00 + m.a01 * n.a10
    a01 := m.a00 * n.a01 + m.a01 * n.a11
    a02 := m.a00 * n.a02 + m.a01 * n.a12 + m.a02
    a10 := m.a10 * n.a00 + m.a11 * n.a10
    a11 := m.a10 * n.a01 + m.a11 * n.a11
    a12 := m.a10 * n.a02 + m.a11 * n.a12 + m.a12 }

theorem applyAff_compAff (m n : AffM) (pt : ℚ × ℚ) :
    applyAff (compAff m n) pt = applyAff m (applyAff n pt) := by
  simp only [applyAff, compAff, Prod.ext_iff]
  constructor <;> ring

theorem solveAffine_maps (p0 p1 p2 q0 q1 q2 : ℚ × ℚ)
    (hD : det3x3 p0.1 p0.2 1 p1.1 p1.2 1 p2.1 p2.2 1 ≠ 0) :
    applyAff (solveAffine p0 p1 p2 q0 q1 q2) p0 = q0 ∧
    applyAff (solveAffine p0 p1 p2 q0 q1 q2) p1 = q1 ∧
    applyAff (solveAffine p0 p1 p2 q0 q1 q2) p2 = q2 := by
  simp only [solveAffine, applyAff]
  rw [if_neg hD]
  refine ⟨?_, ?_, ?_⟩ <;> rw [Prod.ext_iff] <;> constructor <;>
    · field_simp
      simp only [det3x3] at hD ⊢
      ring

theorem fix_three_eq_id (m : AffM) (p0 p1 p2 : ℚ × ℚ)
    (hD : det3x3 p0.1 p0.2 1 p1.1 p1.2 1 p2.1 p2.2 1 ≠ 0)
    (h0 : applyAff m p0 = p0) (h1 : applyAff m p1 = p1) (h2 : applyAff m p2 = p2)
    (pt : ℚ × ℚ) : applyAff m pt = pt := by
  simp only [applyAff, Prod.ext_iff] at h0 h1 h2
  simp only [det3x3] at hD
  obtain ⟨h0x, h0y⟩ := h0
  obtain ⟨h1x, h1y⟩ := h1
  obtain ⟨h2x, h2y⟩ := h2
  have e1 : (m.a00 - 1) * (p1.1 - p0.1) + m.a01 * (p1.2 - p0.2) = 0 := by
    linear_combination h1x - h0x
  have e2 : (m.a00 - 1) * (p2.1 - p0.1) + m.a01 * (p2.2 - p0.2) = 0 := by
    linear_combination h2x - h0x
  have f1 : (m.a11 - 1) * (p1.2 - p0.2) + m.a10 * (p1.1 - p0.1) = 0 := by
    linear_combination h1y - h0y
  have f2 : (m.a11 - 1) * (p2.2 - p0.2) + m.a10 * (p2.1 - p0.1) = 0 := by
    linear_combination h2y - h0y
  have hDne : (p1.1 - p0.1) * (p2.2 - p0.2) - (p1.2 - p0.2) * (p2.1 - p0.1) ≠ 0 := by
    intro h
    apply hD
    linear_combination h
  have ha00 : m.a00 = 1 := by
    have hz : (m.a00 - 1) * ((p1.1 - p0.1) * (p2.2 - p0.2) - (p1.2 - p0.2) * (p2.1 - p0.1)) = 0 := by
      linear_combination (p2.2 - p0.2) * e1 - (p1.2 - p0.2) * e2
    rcases mul_eq_zero.mp hz with h | h
    · linarith
    · exact absurd h hDne
  have ha01 : m.a01 = 0 := by
    have hz : m.a01 * ((p1.1 - p0.1) * (p2.2 - p0.2) - (p1.2 - p0.2) * (p2.1 - p0.1)) = 0 := by
      linear_combination (p1.1 - p0.1) * e2 - (p2.1 - p0.1) * e1
    rcases mul_eq_zero.mp hz with h | h
    · exact h
    · exact absurd h hDne
  have ha11 : m.a11 = 1 := by
    have hz : (m.a11 - 1) * ((p1.1 - p0.1) * (p2.2 - p0.2) - (p1.2 - p0.2) * (p2.1 - p0.1)) = 0 := by
      linear_combination (p1.1 - p0.1) * f2 - (p2.1 - p0.1) * f1
    rcases mul_eq_zero.mp hz with h | h
    · linarith
    · exact absurd h hDne
  have ha10 : m.a10 = 0 := by
    have hz : m.a10 * ((p1.1 - p0.1) * (p2.2 - p0.2) - (p1.2 - p0.2) * (p2.1 - p0.1)) = 0 := by
      linear_combination (p2.2 - p0.2) * f1 - (p1.2 - p0.2) * f2
    rcases mul_eq_zero.mp hz with h | h
    · exact h
    · exact absurd h hDne
  have ha02 : m.a02 = 0 := by linear_combination h0x - p0.1 * ha00 - p0.2 * ha01
  have ha12 : m.a12 = 0 := by linear_combination h0y - p0.2 * ha11 - p0.1 * ha10
  simp only [applyAff, ha00, ha01, ha02, ha10, ha11, ha12, Prod.ext_iff]
  constructor <;> ring

theorem solveAffine_roundtrip (p0 p1 p2 q0 q1 q2 : ℚ × ℚ)
    (hp : det3x3 p0.1 p0.2 1 p1.1 p1.2 1 p2.1 p2.2 1 ≠ 0)
    (hq : det3x3 q0.1 q0.2 1 q1.1 q1.2 1 q2.1 q2.2 1 ≠ 0)
    (pt : ℚ × ℚ) :
    applyAff (solveAffine q0 q1 q2 p0 p1 p2) (applyAff (solveAffine p0 p1 p2 q0 q1 q2) pt) = pt := by
  obtain ⟨hf0, hf1, hf2⟩ := solveAffine_maps p0 p1 p2 q0 q1 q2 hp
  obtain ⟨hi0, hi1, hi2⟩ := solveAffine_maps q0 q1 q2 p0 p1 p2 hq
  rw [← applyAff_compAff]
  refine fix_three_eq_id _ p0 p1 p2 hp ?_ ?_ ?_ pt
  · rw [applyAff_compAff, hf0, hi0]
  · rw [applyAff_compAff, hf1, hi1]
  · rw [applyAff_compAff, hf2, hi2]


/-- Claim C5: for every non-degenerate center, scale, rotation and output
size, the forward affine matrix (`inv = False`) composed with the inverse
affine matrix (`inv = True`) built from the same parameters approximates the
identity mapping: projecting any point forward and then inverse yields the
original point within `1e-3` pixels (in the exact-rational model the
round trip is exact, hence within tolerance).  Non-degeneracy: nonzero
scale, nonzero output width, and `(sn, cs)` the sine/cosine of an actual
rotation angle. -/
theorem C5_forward_inverse_roundtrip (cx cy w dw dh sn cs px py : ℚ)
    (hw : w ≠ 0) (hdw : dw ≠ 0) (ht : sn ^ 2 + cs ^ 2 = 1) :
    |(applyAff (get_affine_transform_scalar (cx, cy) w sn cs (dw, dh) true)
        (applyAff (get_affine_transform_scalar (cx, cy) w sn cs (dw, dh) false) (px, py))).1
      - px| ≤ 1/1000 ∧
    |(applyAff (get_affine_transform_scalar (cx, cy) w sn cs (dw, dh) true)
        (applyAff (get_affine_transform_scalar (cx, cy) w sn cs (dw, dh) false) (px, py))).2
      - py| ≤ 1/1000 := by
  have hp : det3x3 (cx, cy).1 (cx, cy).2 1
      (cx + ((0:ℚ) * cs - w * (-1/2) * sn), cy + ((0:ℚ) * sn + w * (-1/2) * cs)).1
      (cx + ((0:ℚ) * cs - w * (-1/2) * sn), cy + ((0:ℚ) * sn + w * (-1/2) * cs)).2 1
      (get_3rd_point ((cx, cy) : ℚ × ℚ)
        (cx + ((0:ℚ) * cs - w * (-1/2) * sn), cy + ((0:ℚ) * sn + w * (-1/2) * cs))).1
      (get_3rd_point ((cx, cy) : ℚ × ℚ)
        (cx + ((0:ℚ) * cs - w * (-1/2) * sn), cy + ((0:ℚ) * sn + w * (-1/2) * cs))).2 1 ≠ 0 := by
    simp only [get_3rd_point, det3x3]
    intro h
    have h2 : w ^ 2 * (sn ^ 2 + cs ^ 2) * (-1/4) = 0 := by linear_combination h
    rw [ht, mul_one] at h2
    have h3 : w ^ 2 = 0 := by linarith
    exact hw (pow_eq_zero_iff (n := 2) (by norm_num) |>.mp h3)
  have hq : det3x3 ((dw * (1/2) : ℚ), (dh * (1/2) : ℚ)).1 ((dw * (1/2) : ℚ), (dh * (1/2) : ℚ)).2 1
      ((dw * (1/2) + 0 : ℚ), (dh * (1/2) + dw * (-1/2) : ℚ)).1
      ((dw * (1/2) + 0 : ℚ), (dh * (1/2) + dw * (-1/2) : ℚ)).2 1
      (get_3rd_point ((dw * (1/2) : ℚ), (dh * (1/2) : ℚ))
        ((dw * (1/2) + 0 : ℚ), (dh * (1/2) + dw * (-1/2) : ℚ))).1
      (get_3rd_point ((dw * (1/2) : ℚ), (dh * (1/2) : ℚ))
        ((dw * (1/2) + 0 : ℚ), (dh * (1/2) + dw * (-1/2) : ℚ))).2 1 ≠ 0 := by
    simp only [get_3rd_point, det3x3]
    intro h
    have h2 : dw ^ 2 * (-1/4) = 0 := by linear_combination h
    have h3 : dw ^ 2 = 0 := by linarith
    exact hdw (pow_eq_zero_iff (n := 2) (by norm_num) |>.mp h3)
  have heq : applyAff (get_affine_transform_scalar (cx, cy) w sn cs (dw, dh) true)
      (applyAff (get_affine_transform_scalar (cx, cy) w sn cs (dw, dh) false) (px, py))
      = (px, py) := solveAffine_roundtrip _ _ _ _ _ _ hp hq (px, py)
  rw [heq]
  norm_num

theorem C5_forward_inverse_roundtrip_witness :
    ((4 : ℚ) ≠ 0) ∧ ((64 : ℚ) ≠ 0) ∧ ((3/5 : ℚ) ^ 2 + (4/5 : ℚ) ^ 2 = 1) ∧
    (|(applyAff (get_affine_transform_scalar ((1 : ℚ), 2) 4 (3/5) (4/5) (64, 32) true)
        (applyAff (get_affine_transform_scalar ((1 : ℚ), 2) 4 (3/5) (4/5) (64, 32) false)
          (7, 9))).1 - 7| ≤ 1/1000 ∧
     |(applyAff (get_affine_transform_scalar ((1 : ℚ), 2) 4 (3/5) (4/5) (64, 32) true)
        (applyAff (get_affine_transform_scalar ((1 : ℚ), 2) 4 (3/5) (4/5) (64, 32) false)
          (7, 9))).2 - 9| ≤ 1/1000) :=
  ⟨by norm_num, by norm_num, by norm_num,
    C5_forward_inverse_roundtrip 1 2 4 64 32 (3/5) (4/5) 7 9
      (by norm_num) (by norm_num) (by norm_num)⟩

/-- Claim C9 (amended): `get_affine_transform` performs no validation of its
parameters.  With a scale of zero the three source points coincide, the
three-point solve is singular, and the call still returns a matrix — the
all-zero matrix that the failed `cv::solve` leaves behind — rather than
propagating any computation failure. -/
theorem C9_scale_zero_returns_zero_matrix (cx cy sn cs dw dh : ℚ) :
    get_affine_transform (cx, cy) (0, 0) sn cs (dw, dh) false = ⟨0, 0, 0, 0, 0, 0⟩ := by
  simp only [get_affine_transform, get_dir, get_3rd_point, solveAffine, det3x3,
    Bool.false_eq_true, if_false]
  split_ifs with h
  · rfl
  · exact absurd (by ring) h

/-- Claim C9 counterexample: a concrete affine-solve call with scale zero
does not fail — it returns the all-zero matrix, and the returned transform
silently maps every point (here `(30, 40)`) to `(0, 0)` instead of
propagating a computation failure. -/
theorem C9_scale_zero_call_returns :
    get_affine_transform ((5 : ℚ), 5) (0, 0) 0 1 (64, 64) false = ⟨0, 0, 0, 0, 0, 0⟩ ∧
    applyAff (get_affine_transform ((5 : ℚ), 5) (0, 0) 0 1 (64, 64) false) (30, 40) = (0, 0) :=
  ⟨by with_unfolding_all rfl, by with_unfolding_all rfl⟩

/-- Claim C10: `get_affine_transform` depends only on the first component of
a 2-vector scale — two calls whose scale vectors agree in their first
component return identical matrices; the second component never influences
the result (line 112 reads only `scale[0]`). -/
theorem C10_scale_second_component_ignored (center : ℚ × ℚ) (s0 a b sn cs : ℚ)
    (output_size : ℚ × ℚ) (inv : Bool) :
    get_affine_transform center (s0, a) sn cs output_size inv
      = get_affine_transform center (s0, b) sn cs output_size inv := rfl


/-! ## Local-maximum suppression, `_nms` (lines 171-189) -/

/-- Zero padding `np.pad(A, padding, mode='constant')` of an `H x W` channel
(line 174): index into the original array shifted by `padding`, zero
outside. -/
def padded (A : ℕ → ℕ → ℚ) (H W padding : ℕ) : ℕ → ℕ → ℚ := fun i j =>
  if padding ≤ i ∧ i < H + padding ∧ padding ≤ j ∧ j < W + padding then
    A (i - padding) (j - padding)
  else 0

/-- `max_pool2d` (lines 173-183): stride-1 square-kernel max pooling of the
zero-padded channel; output cell `(i, j)` is the `.max` of the
`kernel x kernel` strided window of the padded array at offset `(i, j)`
(lines 178-183).  The fold is seeded with the window's own `(0, 0)` element,
so for `kernel ≥ 1` it equals exactly the numpy window maximum. -/
def max_pool2d (A : ℕ → ℕ → ℚ) (H W kernel padding : ℕ) : ℕ → ℕ → ℚ := fun i j =>
  ((List.range kernel).flatMap fun di => (List.range kernel).map fun dj =>
      padded A H W padding (i + di) (j + dj)).foldr max (padded A H W padding i j)

/-- `_nms` (lines 171-189): per channel, `hmax = max_pool2d(channel, kernel,
(kernel - 1) // 2)`, `keep = (hmax == heat)`, result `heat * keep`; the
decoder calls it with the default `kernel = 3`. -/
def _nms (heat : ℕ → ℕ → ℕ → ℚ) (H W kernel : ℕ) : ℕ → ℕ → ℕ → ℚ := fun c i j =>
  heat c i j *
    (if max_pool2d (heat c) H W kernel ((kernel - 1) / 2) i j = heat c i j then 1 else 0)

/-- Claim C3: for every class channel and every cell of the sigmoid-activated
heatmap (sigmoid outputs are strictly positive, carried as the hypothesis
`0 < heat c i j`), the suppression step keeps the cell's value unchanged if
and only if that value equals the 3x3 stride-1 zero-padded max-pool at that
cell — ties with neighbours survive, with no further tie-breaking — and sets
the cell to zero otherwise. -/
theorem C3_nms_keep_iff_pool_eq (heat : ℕ → ℕ → ℕ → ℚ) (H W c i j : ℕ)
    (hpos : 0 < heat c i j) :
    (_nms heat H W 3 c i j = heat c i j ↔ max_pool2d (heat c) H W 3 1 i j = heat c i j) ∧
    (max_pool2d (heat c) H W 3 1 i j ≠ heat c i j → _nms heat H W 3 c i j = 0) := by
  have hred : _nms heat H W 3 c i j
      = heat c i j * (if max_pool2d (heat c) H W 3 1 i j = heat c i j then 1 else 0) := rfl
  rw [hred]
  rcases eq_or_ne (max_pool2d (heat c) H W 3 1 i j) (heat c i j) with h | h
  · rw [if_pos h]
    exact ⟨⟨fun _ => h, fun _ => mul_one _⟩, fun hne => absurd h hne⟩
  · rw [if_neg h]
    refine ⟨⟨fun h0 => ?_, fun hp => absurd hp h⟩, fun _ => mul_zero _⟩
    rw [mul_zero] at h0
    exact absurd h0.symm (ne_of_gt hpos)

theorem C3_nms_keep_iff_pool_eq_witness :
    (0 : ℚ) < 1/2 ∧
    ((_nms (fun _ _ _ => (1/2 : ℚ)) 4 4 3 0 0 0 = (1/2 : ℚ) ↔
        max_pool2d (fun _ _ => (1/2 : ℚ)) 4 4 3 1 0 0 = (1/2 : ℚ)) ∧
      (max_pool2d (fun _ _ => (1/2 : ℚ)) 4 4 3 1 0 0 ≠ (1/2 : ℚ) →
        _nms (fun _ _ _ => (1/2 : ℚ)) 4 4 3 0 0 0 = 0)) :=
  ⟨by norm_num, C3_nms_keep_iff_pool_eq (fun _ _ _ => (1/2 : ℚ)) 4 4 0 0 0 (by norm_num)⟩


/-! ## Two-stage top-K selection, `_topk` (lines 149-169) -/

/-- Stable insertion of a `(position, score)` pair into a list held in
descending score order: the pair goes in front of the first entry whose
score does not exceed it (proof machinery for `selTopK`). -/
def insertCand (a : ℕ × ℚ) : List (ℕ × ℚ) → List (ℕ × ℚ)
  | [] => [a]
  | b :: l => if b.2 ≤ a.2 then a :: b :: l else b :: insertCand a l

/-- Stable insertion sort by descending score (proof machinery for
`selTopK`). -/
def sortCands : List (ℕ × ℚ) → List (ℕ × ℚ)
  | [] => []
  | x :: xs => insertCand x (sortCands xs)

/-- Modelled from numpy: `np.argpartition(xs, -K)[-K:]` (lines 154 and 161)
returns the positions of the `K` largest entries of `xs` in an
implementation-defined order; the model fixes that order deterministically
(descending value, stable).  Every property proved about the selection below
is independent of the chosen order. -/
def selTopK (xs : List ℚ) (K : ℕ) : List ℕ :=
  ((sortCands ((List.range xs.length).zip xs)).map Prod.fst).take K

/-- One candidate of the per-class top-K stage: its score (`topk_scores`),
flat spatial index (`topk_inds`), and the derived row
`topk_ys = (topk_inds / width).astype(np.int32).astype(np.float)` — float
true division truncated, `Int.floor` on nonnegative rationals — and column
`topk_xs = topk_inds % width` (lines 154-158). -/
structure Cand where
  score : ℚ
  ind : ℕ
  ys : ℚ
  xs : ℚ

instance : Inhabited Cand := ⟨⟨0, 0, 0, 0⟩⟩

/-- Row-major flattening `scores.reshape((cat, -1))` of one channel
(line 153): flat position `r` holds the cell at row `r / W`, column
`r % W`. -/
def flatChannel (scores : ℕ → ℕ → ℕ → ℚ) (W c r : ℕ) : ℚ :=
  scores c (r / W) (r % W)

/-- The per-class top-K stage (lines 153-158) for channel `c`: the selected
flat indices carrying their scores, truncated rows and columns. -/
def perClassCands (scores : ℕ → ℕ → ℕ → ℚ) (H W K c : ℕ) : List Cand :=
  (selTopK ((List.range (H * W)).map (flatChannel scores W c)) K).map fun r =>
    { score := flatChannel scores W c r
      ind := r
      ys := ((⌊(r : ℚ) / (W : ℚ)⌋ : ℤ) : ℚ)
      xs := ((r % W : ℕ) : ℚ) }

/-- `topk_scores.reshape((-1))` (line 160): the `C x K` per-class candidate
array flattened row major, class block after class block. -/
def flatCands (scores : ℕ → ℕ → ℕ → ℚ) (C H W K : ℕ) : List Cand :=
  ((List.range C).map (perClassCands scores H W K)).flatten

/-- The global stage `topk_ind = np.argpartition(topk_scores, -K)[-K:]`
(line 161) over the flattened per-class scores. -/
def globalSel (scores : ℕ → ℕ → ℕ → ℚ) (C H W K : ℕ) : List ℕ :=
  selTopK ((flatCands scores C H W K).map Cand.score) K

/-- The five arrays returned by `_topk` (line 169). -/
structure TopK where
  score : List ℚ
  inds : List ℕ
  clses : List ℚ
  ys : List ℚ
  xs : List ℚ

/-- `_topk` (lines 149-169).  `np.argpartition(a, -K, axis=1)` demands
`K ≤ a.shape[1]`; with `a.shape[1] = H * W` in the per-class stage (line
154) and `C * K` in the global stage (line 161) the calls raise a
`ValueError` — modelled as `none` — unless `1 ≤ K ≤ H * W` and `1 ≤ C`
(numpy's degenerate `[-0:]` slicing is not modelled; the decoder always
passes `K = 100`).  On success, the five arrays gather score, flat spatial
index, class id `topk_clses = topk_ind / K` (line 163 — numpy true
division producing a float, with no integer cast), row and column at the
selected global positions via `_gather_feat` (lines 162-167). -/
def _topk (scores : ℕ → ℕ → ℕ → ℚ) (C H W K : ℕ) : Option TopK :=
  if 1 ≤ K ∧ K ≤ H * W ∧ 1 ≤ C then
    some
      { score := (globalSel scores C H W K).map fun p =>
          ((flatCands scores C H W K).getD p default).score
        inds := (globalSel scores C H W K).map fun p =>
          ((flatCands scores C H W K).getD p default).ind
        clses := (globalSel scores C H W K).map fun (p : ℕ) => (p : ℚ) / (K : ℚ)
        ys := (globalSel scores C H W K).map fun p =>
          ((flatCands scores C H W K).getD p default).ys
        xs := (globalSel scores C H W K).map fun p =>
          ((flatCands scores C H W K).getD p default).xs }
  else none

theorem length_insertCand (a : ℕ × ℚ) (l : List (ℕ × ℚ)) :
    (insertCand a l).length = l.length + 1 := by
  induction l with
  | nil => rfl
  | cons b t ih =>
    simp only [insertCand]
    split_ifs <;> simp [ih]

theorem length_sortCands (l : List (ℕ × ℚ)) : (sortCands l).length = l.length := by
  induction l with
  | nil => rfl
  | cons x xs ih => simp [sortCands, length_insertCand, ih]

theorem mem_insertCand {x a : ℕ × ℚ} {l : List (ℕ × ℚ)} :
    x ∈ insertCand a l ↔ x = a ∨ x ∈ l := by
  induction l with
  | nil => simp [insertCand]
  | cons b t ih =>
    simp only [insertCand]
    split_ifs <;> simp [ih] <;> tauto

theorem mem_sortCands {x : ℕ × ℚ} {l : List (ℕ × ℚ)} :
    x ∈ sortCands l ↔ x ∈ l := by
  induction l with
  | nil => simp [sortCands]
  | cons b t ih => simp [sortCands, mem_insertCand, ih]

theorem selTopK_length (xs : List ℚ) (K : ℕ) :
    (selTopK xs K).length = min K xs.length := by
  simp [selTopK, length_sortCands]

theorem mem_selTopK_lt {p : ℕ} {xs : List ℚ} {K : ℕ} (h : p ∈ selTopK xs K) :
    p < xs.length := by
  have h1 := List.mem_of_mem_take h
  obtain ⟨pair, hpair, hfst⟩ := List.mem_map.mp h1
  have h2 := mem_sortCands.mp hpair
  have h3 := (List.of_mem_zip h2).1
  rw [← hfst]
  exact List.mem_range.mp h3

theorem length_perClassCands (scores : ℕ → ℕ → ℕ → ℚ) (H W K c : ℕ) :
    (perClassCands scores H W K c).length = min K (H * W) := by
  simp [perClassCands, selTopK_length]

theorem mem_perClassCands {cand : Cand} {scores : ℕ → ℕ → ℕ → ℚ} {H W K c : ℕ}
    (h : cand ∈ perClassCands scores H W K c) :
    ∃ r, r < H * W ∧ cand = Cand.mk (flatChannel scores W c r) r
      ((⌊(r : ℚ) / (W : ℚ)⌋ : ℤ) : ℚ) ((r % W : ℕ) : ℚ) := by
  obtain ⟨r, hr, hre⟩ := List.mem_map.mp h
  refine ⟨r, ?_, hre.symm⟩
  simpa using mem_selTopK_lt hr

theorem length_flatCands (scores : ℕ → ℕ → ℕ → ℚ) (C H W K : ℕ) :
    (flatCands scores C H W K).length = C * min K (H * W) := by
  rw [flatCands, List.length_flatten, List.map_map]
  have hconst : (List.length ∘ perClassCands scores H W K) = fun _ => min K (H * W) := by
    funext c
    exact length_perClassCands scores H W K c
  rw [hconst, List.map_const', List.sum_replicate, smul_eq_mul, List.length_range]

theorem mem_flatCands {cand : Cand} {scores : ℕ → ℕ → ℕ → ℚ} {C H W K : ℕ}
    (h : cand ∈ flatCands scores C H W K) :
    ∃ c, c < C ∧ ∃ r, r < H * W ∧
      cand = Cand.mk (flatChannel scores W c r) r
        ((⌊(r : ℚ) / (W : ℚ)⌋ : ℤ) : ℚ) ((r % W : ℕ) : ℚ) := by
  obtain ⟨l, hl, hcl⟩ := List.mem_flatten.mp h
  obtain ⟨c, hc, hce⟩ := List.mem_map.mp hl
  rw [← hce] at hcl
  obtain ⟨r, hr, hre⟩ := mem_perClassCands hcl
  exact ⟨c, List.mem_range.mp hc, r, hr, hre⟩

theorem length_globalSel (scores : ℕ → ℕ → ℕ → ℚ) (C H W K : ℕ)
    (hHW : K ≤ H * W) (hC : 1 ≤ C) :
    (globalSel scores C H W K).length = K := by
  rw [globalSel, selTopK_length, List.length_map, length_flatCands,
    min_eq_left hHW]
  exact min_eq_left (Nat.le_mul_of_pos_left K hC)

theorem mem_globalSel_lt {p : ℕ} {scores : ℕ → ℕ → ℕ → ℚ} {C H W K : ℕ}
    (h : p ∈ globalSel scores C H W K) :
    p < (flatCands scores C H W K).length := by
  simpa using mem_selTopK_lt h

theorem topk_eq_some (scores : ℕ → ℕ → ℕ → ℚ) (C H W K : ℕ)
    (hK : 1 ≤ K) (hHW : K ≤ H * W) (hC : 1 ≤ C) :
    _topk scores C H W K = some
      { score := (globalSel scores C H W K).map fun p =>
          ((flatCands scores C H W K).getD p default).score
        inds := (globalSel scores C H W K).map fun p =>
          ((flatCands scores C H W K).getD p default).ind
        clses := (globalSel scores C H W K).map fun (p : ℕ) => (p : ℚ) / (K : ℚ)
        ys := (globalSel scores C H W K).map fun p =>
          ((flatCands scores C H W K).getD p default).ys
        xs := (globalSel scores C H W K).map fun p =>
          ((flatCands scores C H W K).getD p default).xs } := by
  rw [_topk, if_pos ⟨hK, hHW, hC⟩]


/-- Claim C2 counterexample: on a heatmap of shape `[1, 5, 5]` — all zero,
spatial size `25 < 100` — the first `np.argpartition(scores, -100)` call is
out of range and `_topk` fails (raises, modelled `none`) instead of
returning 100 candidates. -/
theorem C2_topk_small_heatmap_fails :
    _topk (fun _ _ _ => (0 : ℚ)) 1 5 5 100 = none := by
  with_unfolding_all rfl

/-- Claim C2 (amended): for every heatmap of shape `[C, H, W]` with at least
one class channel and spatial size `H * W ≥ K = 100` — including an all-zero
heatmap — the two-stage top-K selection returns exactly `K = 100` candidates
(scores, spatial indices, class ids, ys, xs each of length 100).  Without
the spatial-size bound the `np.argpartition` call raises instead (see the
counterexample). -/
theorem C2_topk_returns_exactly_100 (scores : ℕ → ℕ → ℕ → ℚ) (C H W : ℕ)
    (hC : 1 ≤ C) (hHW : 100 ≤ H * W) :
    ∃ t, _topk scores C H W 100 = some t ∧
      t.score.length = 100 ∧ t.inds.length = 100 ∧ t.clses.length = 100 ∧
      t.ys.length = 100 ∧ t.xs.length = 100 := by
  refine ⟨_, topk_eq_some scores C H W 100 (by norm_num) hHW hC, ?_, ?_, ?_, ?_, ?_⟩ <;>
    rw [List.length_map, length_globalSel scores C H W 100 hHW hC]

theorem C2_topk_returns_exactly_100_witness :
    1 ≤ 1 ∧ 100 ≤ 10 * 10 ∧
    (∃ t, _topk (fun _ _ _ => (0 : ℚ)) 1 10 10 100 = some t ∧
      t.score.length = 100 ∧ t.inds.length = 100 ∧ t.clses.length = 100 ∧
      t.ys.length = 100 ∧ t.xs.length = 100) :=
  ⟨by norm_num, by norm_num,
    C2_topk_returns_exactly_100 (fun _ _ _ => (0 : ℚ)) 1 10 10 (by norm_num) (by norm_num)⟩

/-- Claim C1: the class id recorded for a surviving global candidate is
`topk_ind / K` by numpy true division with no integer cast (line 163), not
the truncated integer `globalIndex div K` the specification states.  On a
`[1, 10, 10]` constant heatmap the candidate at output position 1 has global
index 1 and the code records class id `1/100`, where the specification
demands the integer `1 div 100 = 0`. -/
theorem C1_topk_clses_not_truncated :
    (_topk (fun _ _ _ => (1/2 : ℚ)) 1 10 10 100).map (fun t => t.clses.getD 1 0)
      = some (1/100 : ℚ) ∧ ((1/100 : ℚ) ≠ ((1 / 100 : ℕ) : ℚ)) := by
  constructor
  · with_unfolding_all rfl
  · norm_num


/-! ## Gathering, `_gather_feat` / `_tranpose_and_gather_feat` (lines 134-147) -/

/-- `np.transpose(feat, (1, 2, 0))` followed by `reshape((-1, 2))`
(lines 144-145) for a two-channel feature tensor of shape `[2, Hf, Wf]`:
row-major flat row `r` holds the channel pair of the cell at row `r / Wf`,
column `r % Wf`. -/
def transposeFlatten (feat : ℕ → ℕ → ℕ → ℚ) (Wf r : ℕ) : ℚ × ℚ :=
  (feat 0 (r / Wf) (r % Wf), feat 1 (r / Wf) (r % Wf))

/-- `_tranpose_and_gather_feat` (lines 142-147): transpose and flatten the
feature tensor, then `_gather_feat` (lines 134-140) row-indexes the
flattened `[Hf * Wf, 2]` array at each index (`feat[ind, np.arange(dim)]`,
line 139), specialised to the two-channel tensors `postprocess` passes.
numpy fancy indexing raises an `IndexError` — modelled as `none` — when an
index reaches outside the flattened array. -/
def _tranpose_and_gather_feat (feat : ℕ → ℕ → ℕ → ℚ) (Hf Wf : ℕ)
    (inds : List ℕ) : Option (List (ℚ × ℚ)) :=
  if ∀ r ∈ inds, r < Hf * Wf then some (inds.map (transposeFlatten feat Wf))
  else none

theorem getD_map_lt {α β : Type} (f : α → β) (l : List α) (i : ℕ) (d : β) (d0 : α)
    (h : i < l.length) : (l.map f).getD i d = f (l.getD i d0) := by
  rw [List.getD_eq_getElem _ _ (by simpa using h), List.getD_eq_getElem _ _ h,
    List.getElem_map]

theorem floor_cast_nat_div (a b : ℕ) :
    ((⌊(a : ℚ) / (b : ℚ)⌋ : ℤ) : ℚ) = ((a / b : ℕ) : ℚ) := by
  have h0 : (0 : ℚ) ≤ (a : ℚ) / (b : ℚ) := by positivity
  have h : ⌊(a : ℚ) / (b : ℚ)⌋ = ((a / b : ℕ) : ℤ) := by
    rw [← Int.natCast_floor_eq_floor h0, Nat.floor_div_nat, Nat.floor_natCast]
  rw [h, Int.cast_natCast]

/-- Every flat spatial index `_topk` outputs lies inside the heatmap's
flattened spatial range. -/
theorem mem_topk_inds_lt {scores : ℕ → ℕ → ℕ → ℚ} {C H W K x : ℕ}
    (hx : x ∈ (globalSel scores C H W K).map fun p =>
      ((flatCands scores C H W K).getD p default).ind) :
    x < H * W := by
  obtain ⟨p, hp, hpx⟩ := List.mem_map.mp hx
  have hplt := mem_globalSel_lt hp
  rw [List.getD_eq_getElem _ _ hplt] at hpx
  obtain ⟨c, _, r, hr, hcand⟩ := mem_flatCands (List.getElem_mem hplt)
  rw [← hpx, hcand]
  exact hr

/-- Every score `_topk` outputs is the flattened-channel value of some cell
of some class channel. -/
theorem mem_topk_score_exists {scores : ℕ → ℕ → ℕ → ℚ} {C H W K : ℕ} {s : ℚ}
    (hs : s ∈ (globalSel scores C H W K).map fun p =>
      ((flatCands scores C H W K).getD p default).score) :
    ∃ c, c < C ∧ ∃ r, r < H * W ∧ s = flatChannel scores W c r := by
  obtain ⟨p, hp, hps⟩ := List.mem_map.mp hs
  have hplt := mem_globalSel_lt hp
  rw [List.getD_eq_getElem _ _ hplt] at hps
  obtain ⟨c, hc, r, hr, hcand⟩ := mem_flatCands (List.getElem_mem hplt)
  exact ⟨c, hc, r, hr, by rw [← hps, hcand]⟩

/-- Claim C4: for every candidate with flat spatial index `ind` produced by
the top-K stage, its row equals `ind div W` and its column `ind mod W` over
the unpadded heatmap width `W`, and the 2-vector gathered from a
regression/size tensor of the same spatial shape at that candidate equals
the tensor's value at `[:, ind div W, ind mod W]` — the index encoding of
the top-K stage and the re-indexing of the gather step agree exactly. -/
theorem C4_index_encoding_agrees (scores feat : ℕ → ℕ → ℕ → ℚ) (C H W i : ℕ)
    (hC : 1 ≤ C) (hHW : 100 ≤ H * W) (hi : i < 100) :
    ∃ t g, _topk scores C H W 100 = some t ∧
      _tranpose_and_gather_feat feat H W t.inds = some g ∧
      t.ys.getD i 0 = ((t.inds.getD i 0 / W : ℕ) : ℚ) ∧
      t.xs.getD i 0 = ((t.inds.getD i 0 % W : ℕ) : ℚ) ∧
      g.getD i (0, 0) = (feat 0 (t.inds.getD i 0 / W) (t.inds.getD i 0 % W),
        feat 1 (t.inds.getD i 0 / W) (t.inds.getD i 0 % W)) := by
  have hglen : (globalSel scores C H W 100).length = 100 :=
    length_globalSel scores C H W 100 hHW hC
  have hilt : i < (globalSel scores C H W 100).length := by rw [hglen]; exact hi
  have hbound : ∀ r ∈ (globalSel scores C H W 100).map fun p =>
      ((flatCands scores C H W 100).getD p default).ind, r < H * W :=
    fun r hr => mem_topk_inds_lt hr
  refine ⟨_, ((globalSel scores C H W 100).map fun p =>
      ((flatCands scores C H W 100).getD p default).ind).map (transposeFlatten feat W),
    topk_eq_some scores C H W 100 (by norm_num) hHW hC, ?_, ?_, ?_, ?_⟩
  · show _tranpose_and_gather_feat feat H W ((globalSel scores C H W 100).map fun p =>
      ((flatCands scores C H W 100).getD p default).ind) = _
    rw [_tranpose_and_gather_feat, if_pos hbound]
  · show ((globalSel scores C H W 100).map fun p =>
        ((flatCands scores C H W 100).getD p default).ys).getD i 0
      = ((((globalSel scores C H W 100).map fun p =>
        ((flatCands scores C H W 100).getD p default).ind).getD i 0 / W : ℕ) : ℚ)
    rw [getD_map_lt _ _ _ _ 0 hilt, getD_map_lt _ _ _ _ 0 hilt]
    have hplt := mem_globalSel_lt (List.getD_eq_getElem _ 0 hilt ▸ List.getElem_mem hilt)
    rw [List.getD_eq_getElem _ _ hplt]
    obtain ⟨c, _, r, hr, hcand⟩ := mem_flatCands (List.getElem_mem hplt)
    rw [hcand]
    exact floor_cast_nat_div r W
  · show ((globalSel scores C H W 100).map fun p =>
        ((flatCands scores C H W 100).getD p default).xs).getD i 0
      = ((((globalSel scores C H W 100).map fun p =>
        ((flatCands scores C H W 100).getD p default).ind).getD i 0 % W : ℕ) : ℚ)
    rw [getD_map_lt _ _ _ _ 0 hilt, getD_map_lt _ _ _ _ 0 hilt]
    have hplt := mem_globalSel_lt (List.getD_eq_getElem _ 0 hilt ▸ List.getElem_mem hilt)
    rw [List.getD_eq_getElem _ _ hplt]
    obtain ⟨c, _, r, hr, hcand⟩ := mem_flatCands (List.getElem_mem hplt)
    rw [hcand]
  · show (((globalSel scores C H W 100).map fun p =>
        ((flatCands scores C H W 100).getD p default).ind).map
          (transposeFlatten feat W)).getD i (0, 0) = _
    rw [getD_map_lt _ _ _ _ 0 (by simpa using hilt)]
    rfl

theorem C4_index_encoding_agrees_witness :
    1 ≤ 1 ∧ 100 ≤ 10 * 10 ∧ 3 < 100 ∧
    (∃ t g, _topk (fun _ _ _ => (1/2 : ℚ)) 1 10 10 100 = some t ∧
      _tranpose_and_gather_feat (fun _ _ _ => (7 : ℚ)) 10 10 t.inds = some g ∧
      t.ys.getD 3 0 = ((t.inds.getD 3 0 / 10 : ℕ) : ℚ) ∧
      t.xs.getD 3 0 = ((t.inds.getD 3 0 % 10 : ℕ) : ℚ) ∧
      g.getD 3 (0, 0) = ((7 : ℚ), (7 : ℚ))) :=
  ⟨by norm_num, by norm_num, by norm_num,
    C4_index_encoding_agrees (fun _ _ _ => (1/2 : ℚ)) (fun _ _ _ => (7 : ℚ))
      1 10 10 3 (by norm_num) (by norm_num) (by norm_num)⟩

/-! ## Box reconstruction, thresholding, back-projection:
`postprocess` (lines 61-92), `_transform_preds` / `_transform`
(lines 191-210) -/

/-- One detection row `[x1, y1, x2, y2, score, class]` (lines 81-85) /
final `Detection(x[0], x[1], x[2], x[3], score=x[4], id=x[5])` record
(line 91).  `id` is a rational because line 163 produces the class id by
true division. -/
structure Detection where
  xmin : ℚ
  ymin : ℚ
  xmax : ℚ
  ymax : ℚ
  score : ℚ
  id : ℚ

instance : Inhabited Detection := ⟨⟨0, 0, 0, 0, 0, 0⟩⟩

/-- `_transform_preds` (lines 191-202): build the inverse affine transform
from `center`, scalar `scale`, rotation `0` (`np.sin 0 = 0`, `np.cos 0 = 1`
exactly) and `output_size`, and apply it to every coordinate pair. -/
def _transform_preds (coords : List (ℚ × ℚ)) (center : ℚ × ℚ) (scale : ℚ)
    (output_size : ℚ × ℚ) : List (ℚ × ℚ) :=
  coords.map fun p =>
    applyAff (get_affine_transform_scalar center scale 0 1 output_size true) p

/-- `_transform` (lines 204-210): push the `(x1, y1)` and `(x2, y2)` corner
columns of the detection array through `_transform_preds` with output size
`(width, height)`; scores and class ids stay in place. -/
def _transform (dets : List Detection) (center : ℚ × ℚ) (scale : ℚ)
    (height width : ℚ) : List Detection :=
  let p01 := _transform_preds (dets.map fun d => (d.xmin, d.ymin)) center scale (width, height)
  let p23 := _transform_preds (dets.map fun d => (d.xmax, d.ymax)) center scale (width, height)
  (List.range dets.length).map fun i =>
    { xmin := (p01.getD i (0, 0)).1
      ymin := (p01.getD i (0, 0)).2
      xmax := (p23.getD i (0, 0)).1
      ymax := (p23.getD i (0, 0)).2
      score := (dets.getD i default).score
      id := (dets.getD i default).id }

/-- The confidence mask `detections[..., 4] >= self._threshold` and its
application (lines 86-87). -/
def thresholdFilter (dets : List Detection) (threshold : ℚ) : List Detection :=
  dets.filter fun d => threshold ≤ d.score

/-- `postprocess` (lines 61-92) on the sigmoid-activated heatmap `heat` of
shape `[C, H, W]` (the transcendental sigmoid of line 65 is applied by the
caller — see the header comment), the regression tensor `reg` of shape
`[2, Hr, Wr]` and the size tensor `wh` of shape `[2, Hw, Ww]`.
`num_predictions = 100` (line 67), `height, width` come from the heatmap
(line 66), the gathers use each tensor's own shape (lines 144-145),
`scale = max(original_shape)` over the `(height, width, 3)` image shape
tuple (line 88), and `center` is flipped to `(x, y)` order (lines 89-90).
A failing stage (`_topk` or a gather) aborts the whole decode. -/
def postprocess (heat reg wh : ℕ → ℕ → ℕ → ℚ) (C H W Hr Wr Hw Ww : ℕ)
    (threshold : ℚ) (origH origW : ℚ) : Option (List Detection) :=
  match _topk (_nms heat H W 3) C H W 100 with
  | none => none
  | some t =>
    match _tranpose_and_gather_feat reg Hr Wr t.inds,
        _tranpose_and_gather_feat wh Hw Ww t.inds with
    | some regG, some whG =>
      let dets : List Detection := (List.range 100).map fun i =>
        { xmin := t.xs.getD i 0 + (regG.getD i (0, 0)).1 - (whG.getD i (0, 0)).1 / 2
          ymin := t.ys.getD i 0 + (regG.getD i (0, 0)).2 - (whG.getD i (0, 0)).2 / 2
          xmax := t.xs.getD i 0 + (regG.getD i (0, 0)).1 + (whG.getD i (0, 0)).1 / 2
          ymax := t.ys.getD i 0 + (regG.getD i (0, 0)).2 + (whG.getD i (0, 0)).2 / 2
          score := t.score.getD i 0
          id := t.clses.getD i 0 }
      some (_transform (thresholdFilter dets threshold)
        (origW / 2, origH / 2) (max (max origH origW) 3) (H : ℚ) (W : ℚ))
    | _, _ => none

/-- Claim C6: threshold filtering is monotone — for every fixed list of
decoded candidate rows and thresholds `t1 ≤ t2`, the number of detections
surviving the `score >= threshold` filter at `t2` is at most the number
surviving at `t1`. -/
theorem C6_threshold_filter_monotone (dets : List Detection) (t1 t2 : ℚ)
    (h : t1 ≤ t2) :
    (thresholdFilter dets t2).length ≤ (thresholdFilter dets t1).length := by
  apply List.Sublist.length_le
  apply List.monotone_filter_right
  intro d hd
  simp only [decide_eq_true_eq] at hd ⊢
  exact le_trans h hd

theorem C6_threshold_filter_monotone_witness :
    (1/4 : ℚ) ≤ 3/4 ∧
    (thresholdFilter [Detection.mk 0 0 1 1 (1/2) 0] (3/4)).length ≤
      (thresholdFilter [Detection.mk 0 0 1 1 (1/2) 0] (1/4)).length :=
  ⟨by norm_num, C6_threshold_filter_monotone [Detection.mk 0 0 1 1 (1/2) 0] (1/4) (3/4)
    (by norm_num)⟩


theorem postprocess_isSome (heat reg wh : ℕ → ℕ → ℕ → ℚ) (C H W Hr Wr Hw Ww : ℕ)
    (threshold : ℚ) (origH origW : ℚ)
    (hC : 1 ≤ C) (hHW : 100 ≤ H * W) (hr : H * W ≤ Hr * Wr) (hw2 : H * W ≤ Hw * Ww) :
    (postprocess heat reg wh C H W Hr Wr Hw Ww threshold origH origW).isSome = true := by
  have htopk := topk_eq_some (_nms heat H W 3) C H W 100 (by norm_num) hHW hC
  have hbr : ∀ r ∈ (globalSel (_nms heat H W 3) C H W 100).map fun p =>
      ((flatCands (_nms heat H W 3) C H W 100).getD p default).ind, r < Hr * Wr :=
    fun r hrm => lt_of_lt_of_le (mem_topk_inds_lt hrm) hr
  have hbw : ∀ r ∈ (globalSel (_nms heat H W 3) C H W 100).map fun p =>
      ((flatCands (_nms heat H W 3) C H W 100).getD p default).ind, r < Hw * Ww :=
    fun r hrm => lt_of_lt_of_le (mem_topk_inds_lt hrm) hw2
  rw [postprocess.eq_def, htopk]
  simp only [_tranpose_and_gather_feat]
  rw [if_pos hbr, if_pos hbw]
  rfl

theorem topk_score_getD_lt {scores : ℕ → ℕ → ℕ → ℚ} {C H W K i : ℕ} {τ : ℚ}
    (hτ : 0 < τ)
    (hs : ∀ c r, c < C → r < H * W → scores c (r / W) (r % W) < τ) :
    ((globalSel scores C H W K).map fun p =>
      ((flatCands scores C H W K).getD p default).score).getD i 0 < τ := by
  rcases lt_or_ge i ((globalSel scores C H W K).map fun p =>
      ((flatCands scores C H W K).getD p default).score).length with hi | hi
  · rw [List.getD_eq_getElem _ _ hi]
    obtain ⟨c, hc, r, hr, hform⟩ := mem_topk_score_exists (List.getElem_mem hi)
    rw [hform]
    exact hs c r hc hr
  · rw [List.getD_eq_default _ _ hi]
    exact hτ

/-- Claim C7: for every input heatmap (sigmoid-activated, so every cell value
lies in `(0, 1)`), regression and size tensor of matching spatial shape, a
configured threshold of `1.1` — above any possible sigmoid output — makes
`postprocess` return the empty detection list; the empty list is a valid
silently-returned outcome, not an error (`some []`, never `none`). -/
theorem C7_threshold_above_sigmoid_empty (heat reg wh : ℕ → ℕ → ℕ → ℚ) (C H W : ℕ)
    (origH origW : ℚ) (hC : 1 ≤ C) (hHW : 100 ≤ H * W)
    (hrange : ∀ c y x, c < C → y < H → x < W → 0 < heat c y x ∧ heat c y x < 1) :
    postprocess heat reg wh C H W H W H W (11/10) origH origW = some [] := by
  have hW : 0 < W := by
    rcases Nat.eq_zero_or_pos W with h0 | h0
    · rw [h0, Nat.mul_zero] at hHW
      omega
    · exact h0
  have htopk := topk_eq_some (_nms heat H W 3) C H W 100 (by norm_num) hHW hC
  have hb : ∀ r ∈ (globalSel (_nms heat H W 3) C H W 100).map fun p =>
      ((flatCands (_nms heat H W 3) C H W 100).getD p default).ind, r < H * W :=
    fun r hrm => mem_topk_inds_lt hrm
  have hnmslt : ∀ c r, c < C → r < H * W → _nms heat H W 3 c (r / W) (r % W) < 11/10 := by
    intro c r hc hr
    have hy : r / W < H := Nat.div_lt_iff_lt_mul hW |>.mpr hr
    have hx : r % W < W := Nat.mod_lt _ hW
    obtain ⟨hpos, hlt1⟩ := hrange c (r / W) (r % W) hc hy hx
    show heat c (r / W) (r % W) *
      (if max_pool2d (heat c) H W 3 ((3 - 1) / 2) (r / W) (r % W) = heat c (r / W) (r % W)
        then 1 else 0) < 11/10
    split_ifs with hmp
    · rw [mul_one]
      linarith
    · rw [mul_zero]
      norm_num
  have hscorelt : ∀ i, ((globalSel (_nms heat H W 3) C H W 100).map fun p =>
      ((flatCands (_nms heat H W 3) C H W 100).getD p default).score).getD i 0 < 11/10 :=
    fun i => topk_score_getD_lt (by norm_num) hnmslt
  have hfil : ∀ (dets : List Detection), (∀ d ∈ dets, d.score < 11/10) →
      thresholdFilter dets (11/10) = [] := by
    intro dets hd
    rw [thresholdFilter, List.filter_eq_nil_iff]
    intro d hmem
    simp only [decide_eq_true_eq]
    exact not_le.mpr (hd d hmem)
  rw [postprocess.eq_def, htopk]
  simp only [_tranpose_and_gather_feat]
  rw [if_pos hb, if_pos hb]
  dsimp only
  rw [hfil _ ?hsc]
  case hsc =>
    intro d hd
    obtain ⟨i, hi, hdet⟩ := List.mem_map.mp hd
    rw [← hdet]
    exact hscorelt i
  rfl

theorem C7_threshold_above_sigmoid_empty_witness :
    1 ≤ 1 ∧ 100 ≤ 10 * 10 ∧
    (∀ c y x : ℕ, c < 1 → y < 10 → x < 10 →
      0 < (fun _ _ _ => (1/2 : ℚ)) c y x ∧ (fun _ _ _ => (1/2 : ℚ)) c y x < 1) ∧
    postprocess (fun _ _ _ => (1/2 : ℚ)) (fun _ _ _ => 0) (fun _ _ _ => 0)
      1 10 10 10 10 10 10 (11/10) 64 64 = some [] :=
  ⟨by norm_num, by norm_num, fun c y x _ _ _ => by norm_num,
    C7_threshold_above_sigmoid_empty (fun _ _ _ => (1/2 : ℚ)) (fun _ _ _ => 0)
      (fun _ _ _ => 0) 1 10 10 64 64 (by norm_num) (by norm_num)
      (fun c y x _ _ _ => by norm_num)⟩

/-- Claim C8 (amended): `postprocess` performs no shape-consistency check
across the heatmap, offset and size tensors.  Whenever the flattened
spatial extent of the offset and size tensors is at least the heatmap's
(`H * W ≤ Hr * Wr` and `H * W ≤ Hw * Ww`) — in particular for *any*
disagreeing larger shapes — the decode does not abort: it returns a
detection list.  It aborts only when a gathered index falls outside a
tensor's flattened extent. -/
theorem C8_no_shape_check (heat reg wh : ℕ → ℕ → ℕ → ℚ) (C H W Hr Wr Hw Ww : ℕ)
    (threshold origH origW : ℚ)
    (hC : 1 ≤ C) (hHW : 100 ≤ H * W) (hr : H * W ≤ Hr * Wr) (hw2 : H * W ≤ Hw * Ww) :
    (postprocess heat reg wh C H W Hr Wr Hw Ww threshold origH origW).isSome = true :=
  postprocess_isSome heat reg wh C H W Hr Wr Hw Ww threshold origH origW hC hHW hr hw2

theorem C8_no_shape_check_witness :
    1 ≤ 1 ∧ 100 ≤ 10 * 10 ∧ 10 * 10 ≤ 10 * 10 ∧ 10 * 10 ≤ 10 * 10 ∧
    (postprocess (fun _ _ _ => (1/2 : ℚ)) (fun _ _ _ => 0) (fun _ _ _ => 0)
      1 10 10 10 10 10 10 (3/10) 64 64).isSome = true :=
  ⟨by norm_num, by norm_num, by norm_num, by norm_num,
    C8_no_shape_check (fun _ _ _ => (1/2 : ℚ)) (fun _ _ _ => 0) (fun _ _ _ => 0)
      1 10 10 10 10 10 10 (3/10) 64 64 (by norm_num) (by norm_num) (by norm_num)
      (by norm_num)⟩

/-- Claim C8 counterexample: a decode call whose offset and size tensors
have spatial shape `20 x 20` while the heatmap has `10 x 10` — the spatial
dimensions disagree — does not abort: it succeeds and produces a detection
list, refuting the claim that every shape-mismatched decode fails. -/
theorem C8_shape_mismatch_still_decodes :
    ((10, 10) ≠ ((20 : ℕ), (20 : ℕ))) ∧
    (postprocess (fun _ _ _ => (1/2 : ℚ)) (fun _ _ _ => 0) (fun _ _ _ => 0)
      1 10 10 20 20 20 20 (3/10) 64 64).isSome = true :=
  ⟨by decide, postprocess_isSome (fun _ _ _ => (1/2 : ℚ)) (fun _ _ _ => 0)
    (fun _ _ _ => 0) 1 10 10 20 20 20 20 (3/10) 64 64
    (by norm_num) (by norm_num) (by norm_num) (by norm_num)⟩


end CenterNet
